import Mathlib

/-!
# Sequential Reveal Scheduler — verification of the cultivia front-end

Shallow embedding of the reveal logic of `ChatStyles.jsx` (the `ChatMessage`
and `TypingMessage` components), the message-building logic of
`EventSearch.jsx` (`getChatResponse`) and `ChatInterface.jsx` (`handleSubmit`).

JS strings are modelled as `List Char`; a JS array cell that may hold
`undefined` is modelled as `Option`.
-/

namespace Cultivia

/-- JS strings, modelled as lists of characters. -/
abbrev Str := List Char

/-- The whitespace class used by JavaScript `String.prototype.trim`
(ASCII whitespace, NBSP, the Unicode space separators, LS, PS and BOM). -/
def jsWhitespace (c : Char) : Bool :=
  c = ' ' || c = '\t' || c = '\n' || c = '\r' ||
  c = Char.ofNat 11 || c = Char.ofNat 12 || c = Char.ofNat 160 ||
  c = Char.ofNat 0x1680 ||
  (Char.ofNat 0x2000 ≤ c && c ≤ Char.ofNat 0x200A) ||
  c = Char.ofNat 0x2028 || c = Char.ofNat 0x2029 ||
  c = Char.ofNat 0x202F || c = Char.ofNat 0x205F ||
  c = Char.ofNat 0x3000 || c = Char.ofNat 0xFEFF

/-- JS `s.trim()`: drop whitespace from both ends. -/
def trim (l : Str) : Str :=
  List.rdropWhile jsWhitespace (List.dropWhile jsWhitespace l)

/-- JS `s.split('\n')`.  `"".split('\n') = [""]`, and a trailing separator
produces a trailing empty piece, exactly as in JavaScript. -/
def splitOnNl : Str → List Str
  | [] => [[]]
  | c :: cs =>
    if c = '\n' then [] :: splitOnNl cs
    else
      match splitOnNl cs with
      | [] => [[c]]
      | p :: ps => (c :: p) :: ps

/-- JS `arr.join('\n')` (specialised to the pieces we rebuild). -/
def joinNl : List Str → Str
  | [] => []
  | [p] => p
  | p :: q :: ps => p ++ '\n' :: joinNl (q :: ps)

/-- JS `[...new Set(xs)]`: remove duplicates, keeping the first occurrence of
each element and preserving insertion order. -/
def dedupFirst {α : Type} [DecidableEq α] : List α → List α
  | [] => []
  | x :: xs => x :: (dedupFirst xs).filter (fun y => y ≠ x)

/-- `ChatMessage` (ChatStyles.jsx): `[...new Set(message.content.split('\n')
.map(p => p.trim()).filter(p => p !== ''))]`. -/
def uniqueParagraphs (content : Str) : List Str :=
  dedupFirst (((splitOnNl content).map trim).filter (fun p => p ≠ []))

/-- `TypingMessage` (ChatStyles.jsx): `content.split('\n')
.filter(p => p.trim() !== '')` — note: no trimming of the kept pieces and no
deduplication. -/
def typingParagraphs (content : Str) : List Str :=
  (splitOnNl content).filter (fun p => trim p ≠ [])

/-- The Unit-derivation step as the spec words it (§3, §4.1 step 1): split on
line breaks, trim each piece, drop the pieces that are empty after trimming,
and deduplicate by exact-string equality keeping the first occurrence. -/
def specUnits (content : Str) : List Str :=
  dedupFirst (((splitOnNl content).map trim).filter (fun p => trim p ≠ []))

/-- JS array indexing `xs[i]` with a possibly negative index: out-of-range
access yields `undefined` (`none`). -/
def jsIndex (xs : List Str) (i : Int) : Option Str :=
  if i < 0 then none else xs.get? i.toNat

/-- Message kinds as used by `EventSearch.jsx` (`type: 'user' | 'system'`). -/
inductive MsgType : Type
  | user : MsgType
  | system : MsgType
deriving DecidableEq

/-- A chat transcript entry as built by `EventSearch.jsx`. -/
structure Message : Type where
  type : MsgType
  content : Str
deriving DecidableEq

/-- The state of one `ChatMessage` reveal session: the `visibleParagraphs`
React state (cells may hold `undefined`), the closure-captured `currentIndex`,
and whether a further `setTimeout` is armed. -/
structure ChatReveal : Type where
  visibleParagraphs : List (Option Str)
  currentIndex : Int
  timerArmed : Bool
deriving DecidableEq

/-- The non-user branch of the `ChatMessage` effect: `setVisibleParagraphs([])`,
`let currentIndex = -1`, `setTimeout(showNextParagraph, 100)`. -/
def chatStart : ChatReveal :=
  { visibleParagraphs := [], currentIndex := -1, timerArmed := true }

/-- One firing of `showNextParagraph` in `ChatMessage`:
`if (currentIndex < uniqueParagraphs.length) { setVisibleParagraphs(prev =>
[...prev, uniqueParagraphs[currentIndex]]); currentIndex++;
setTimeout(showNextParagraph, 800); }` — when the guard fails nothing is
appended and no further timeout is armed. -/
def showNextParagraph (units : List Str) (s : ChatReveal) : ChatReveal :=
  if s.currentIndex < (units.length : Int) then
    { visibleParagraphs := s.visibleParagraphs ++ [jsIndex units s.currentIndex]
      currentIndex := s.currentIndex + 1
      timerArmed := true }
  else
    { s with timerArmed := false }

/-- The whole `ChatMessage` effect body: user messages get the full
deduplicated paragraph list at once and arm no timer; other messages start a
reveal session. -/
def chatMessageEffect (m : Message) : ChatReveal :=
  if m.type = MsgType.user then
    { visibleParagraphs := (uniqueParagraphs m.content).map some
      currentIndex := -1
      timerArmed := false }
  else
    chatStart

/-- The state of a `TypingMessage` session: `displayedParagraphs`,
the closure-captured `currentParagraphIndex`, the `isTyping` flag and whether
the `setInterval` is still running. -/
structure TypingState : Type where
  displayedParagraphs : List (Option Str)
  currentParagraphIndex : Int
  isTyping : Bool
  intervalActive : Bool
deriving DecidableEq

/-- The `TypingMessage` effect body: reset state, `setIsTyping(true)`, then
`if (!content) return;` (empty content leaves `isTyping` true and arms no
interval); otherwise the interval is armed with the cursor at `-1`. -/
def typingStart (content : Str) : TypingState :=
  { displayedParagraphs := []
    currentParagraphIndex := -1
    isTyping := true
    intervalActive := content ≠ [] }

/-- One firing of the `TypingMessage` interval callback:
`if (currentParagraphIndex < paragraphs.length) { setDisplayedParagraphs(prev
=> [...prev, paragraphs[currentParagraphIndex]]); currentParagraphIndex++; }
else { setIsTyping(false); clearInterval(typingInterval); }`. -/
def typingTick (content : Str) (s : TypingState) : TypingState :=
  let paragraphs := typingParagraphs content
  if s.currentParagraphIndex < (paragraphs.length : Int) then
    { s with
      displayedParagraphs :=
        s.displayedParagraphs ++ [jsIndex paragraphs s.currentParagraphIndex]
      currentParagraphIndex := s.currentParagraphIndex + 1 }
  else
    { s with isTyping := false, intervalActive := false }

/-- The closure state captured by one `showNextParagraph` chain: the
deduplicated paragraphs of the content it was started for and its mutable
`currentIndex`. -/
structure SessionClosure : Type where
  units : List Str
  currentIndex : Int
deriving DecidableEq

/-- The browser timer world for one mounted `ChatMessage`:
the shared `visibleParagraphs` state, the closure state of every session ever
started, the queue of pending timeouts (timer id, session id), the handle held
by the latest effect's `timer` variable, and fresh-id counters. -/
structure TimerWorld : Type where
  visible : List (Option Str)
  sessions : List (Nat × SessionClosure)
  pending : List (Nat × Nat)
  stored : Option Nat
  nextTimer : Nat
  nextSession : Nat
deriving DecidableEq

/-- A freshly mounted component: nothing visible, nothing pending. -/
def emptyWorld : TimerWorld :=
  { visible := [], sessions := [], pending := [], stored := none,
    nextTimer := 0, nextSession := 0 }

/-- The React cleanup `() => clearTimeout(timer)`: it detaches only the one
handle saved in the effect's `timer` variable; handles created by the
re-arming `setTimeout(showNextParagraph, 800)` calls are not stored there. -/
def clearStoredTimeout (w : TimerWorld) : TimerWorld :=
  match w.stored with
  | none => w
  | some t => { w with pending := w.pending.filter (fun q => q.1 ≠ t) }

/-- Running the `ChatMessage` effect for new non-user content: React first
runs the previous effect's cleanup, then the effect resets
`visibleParagraphs`, builds the closure with cursor `-1`, arms the initial
100 ms timeout and saves that one handle in `timer`. -/
def effectRun (content : Str) (w0 : TimerWorld) : TimerWorld :=
  let w := clearStoredTimeout w0
  { w with
    visible := []
    sessions := w.sessions ++ [(w.nextSession, ⟨uniqueParagraphs content, -1⟩)]
    pending := w.pending ++ [(w.nextTimer, w.nextSession)]
    stored := some w.nextTimer
    nextTimer := w.nextTimer + 1
    nextSession := w.nextSession + 1 }

/-- Look up a session closure by id. -/
def getSession (sid : Nat) : List (Nat × SessionClosure) → Option SessionClosure
  | [] => none
  | (k, v) :: rest => if k = sid then some v else getSession sid rest

/-- Write back a session closure's mutated cursor. -/
def setSession (sid : Nat) (v : SessionClosure) :
    List (Nat × SessionClosure) → List (Nat × SessionClosure)
  | [] => []
  | (k, old) :: rest =>
    if k = sid then (k, v) :: rest else (k, old) :: setSession sid v rest

/-- Which session a pending timer belongs to, if it is still pending. -/
def findPending (tid : Nat) : List (Nat × Nat) → Option Nat
  | [] => none
  | (t, sid) :: rest => if t = tid then some sid else findPending tid rest

/-- A timeout firing: a fired or cleared handle never fires (no-op), otherwise
the owning session's `showNextParagraph` runs — appending
`uniqueParagraphs[currentIndex]` to the shared `visibleParagraphs`,
incrementing the cursor, and re-arming a fresh timeout whose handle is NOT
saved in the effect's `timer` variable. -/
def fireTimer (tid : Nat) (w : TimerWorld) : TimerWorld :=
  match findPending tid w.pending with
  | none => w
  | some sid =>
    let w1 := { w with pending := w.pending.filter (fun q => q.1 ≠ tid) }
    match getSession sid w1.sessions with
    | none => w1
    | some sc =>
      if sc.currentIndex < (sc.units.length : Int) then
        { w1 with
          visible := w1.visible ++ [jsIndex sc.units sc.currentIndex]
          sessions := setSession sid ⟨sc.units, sc.currentIndex + 1⟩ w1.sessions
          pending := w1.pending ++ [(w1.nextTimer, sid)]
          nextTimer := w1.nextTimer + 1 }
      else
        w1

/-- Scan for `replace(/([H])\1+/g, '')`: `n` counts the `H`s of the current
run already read.  On a non-`H` character (or the end) a run of exactly one
`H` is emitted back (the regex needs the captured `H` followed by at least one
more) and a run of two or more is dropped. -/
def stripHHAux : Nat → Str → Str
  | n, [] => if n = 1 then ['H'] else []
  | n, c :: cs =>
    if c = 'H' then stripHHAux (n + 1) cs
    else (if n = 1 then ['H'] else []) ++ c :: stripHHAux 0 cs

/-- `EventSearch.jsx`: strip every run of two or more consecutive `H`
characters, the JS `chatData.message.replace(/([H])\1+/g, '')` — each match of
the greedy regex is a maximal run of at least two `H`s, so lone `H`s are
kept. -/
def stripHH (s : Str) : Str := stripHHAux 0 s

/-- The body of a successful `/chat` response in `EventSearch.jsx`. -/
structure ChatData : Type where
  message : Option Str
deriving DecidableEq

/-- The fixed fallback text appended by the `catch` branch of
`getChatResponse` in `EventSearch.jsx`. -/
def chatFallback : Str :=
  "Désolé, une erreur s'est produite lors de la génération de la réponse.".data

/-- The messages appended by `getChatResponse`: on success, if
`chatData.message` is truthy, one system message with the `H`-runs stripped;
on a thrown error, one system message holding the fixed fallback verbatim. -/
def getChatResponseMessages : Except Unit ChatData → List Message
  | Except.ok d =>
    match d.message with
    | some m => if m ≠ [] then [⟨MsgType.system, stripHH m⟩] else []
    | none => []
  | Except.error _ => [⟨MsgType.system, chatFallback⟩]

/-- The body of a `/chat` response in `ChatInterface.jsx`. -/
structure IfaceData : Type where
  status : Str
  response : Str
deriving DecidableEq

/-- A `ChatInterface.jsx` transcript entry. -/
structure IfaceMessage : Type where
  text : Str
  isUser : Bool
deriving DecidableEq

/-- `ChatInterface.jsx` fallback for a non-success status. -/
def ifaceFallbackStatus : Str := "Désolé, une erreur est survenue.".data

/-- `ChatInterface.jsx` fallback for a network error (`catch`). -/
def ifaceFallbackNetwork : Str :=
  "Désolé, une erreur est survenue lors de la communication avec le serveur.".data

/-- The bot message appended by `handleSubmit` in `ChatInterface.jsx`: the
response on success, a fixed fallback otherwise, always with
`isUser: false` so it takes the same rendering path. -/
def handleSubmitBotMessage : Except Unit IfaceData → IfaceMessage
  | Except.ok d =>
    if d.status = "success".data then ⟨d.response, false⟩
    else ⟨ifaceFallbackStatus, false⟩
  | Except.error _ => ⟨ifaceFallbackNetwork, false⟩

/-- Whether a string contains two consecutive `H` characters. -/
def hasHH : Str → Bool
  | [] => false
  | [_] => false
  | c :: d :: rest => (c = 'H' && d = 'H') || hasHH (d :: rest)

/-! ## Helper lemmas -/

/-- `dropWhile` fixes every list it already fixes, and every front segment of
such a list. -/
theorem dropWhile_fixes_front {α : Type} {p : α → Bool} {m k : List α}
    (hm : List.dropWhile p m = m) (hk : k <+: m) :
    List.dropWhile p k = k := by
  cases k with
  | nil => rfl
  | cons a k2 =>
    obtain ⟨t, ht⟩ := hk
    rw [List.cons_append] at ht
    have ha : ¬ p a = true := by
      intro ha
      rw [← ht, List.dropWhile_cons_of_pos ha] at hm
      have hsuf := List.dropWhile_suffix (l := k2 ++ t) p
      have hle : (List.dropWhile p (k2 ++ t)).length ≤ (k2 ++ t).length :=
        List.IsSuffix.length_le hsuf
      have hlen := congrArg List.length hm
      simp only [List.length_cons] at hlen
      omega
    exact List.dropWhile_cons_of_neg ha

/-- `trim` is idempotent. -/
theorem trim_trim (l : Str) : trim (trim l) = trim l := by
  unfold trim
  have hpre := List.rdropWhile_prefix jsWhitespace (List.dropWhile jsWhitespace l)
  rw [dropWhile_fixes_front (List.dropWhile_idempotent jsWhitespace l) hpre,
    List.rdropWhile_idempotent]

/-- `trim` only removes characters. -/
theorem mem_of_mem_trim {x : Char} {l : Str} (h : x ∈ trim l) : x ∈ l := by
  unfold trim at h
  have hpre := List.rdropWhile_prefix jsWhitespace (List.dropWhile jsWhitespace l)
  have hsuf := List.dropWhile_suffix (l := l) jsWhitespace
  exact hsuf.sublist.mem (hpre.sublist.mem h)

/-- `dedupFirst` yields a duplicate-free list. -/
theorem dedupFirst_nodup {α : Type} [DecidableEq α] (xs : List α) :
    (dedupFirst xs).Nodup := by
  induction xs with
  | nil => exact List.nodup_nil
  | cons x xs ih =>
    simp only [dedupFirst]
    refine List.Nodup.cons ?_ (List.Nodup.filter _ ih)
    intro hmem
    have := List.of_mem_filter hmem
    simp at this

/-- `dedupFirst` only removes elements. -/
theorem mem_of_mem_dedupFirst {α : Type} [DecidableEq α] {x : α} {xs : List α}
    (h : x ∈ dedupFirst xs) : x ∈ xs := by
  induction xs with
  | nil => simp [dedupFirst] at h
  | cons y ys ih =>
    simp only [dedupFirst, List.mem_cons] at h
    rcases h with h | h
    · exact h ▸ List.mem_cons_self y ys
    · exact List.mem_cons_of_mem y (ih (List.mem_of_mem_filter h))

/-- `dedupFirst` is the identity on duplicate-free lists. -/
theorem dedupFirst_eq_self {α : Type} [DecidableEq α] {xs : List α}
    (h : xs.Nodup) : dedupFirst xs = xs := by
  induction xs with
  | nil => rfl
  | cons x ys ih =>
    obtain ⟨hx, hys⟩ := List.nodup_cons.mp h
    simp only [dedupFirst, ih hys]
    congr 1
    apply List.filter_eq_self.mpr
    intro a ha
    have : a ≠ x := fun hax => hx (hax ▸ ha)
    simpa using this

/-- No piece produced by `splitOnNl` contains the separator. -/
theorem not_nl_mem_splitOnNl : ∀ (s : Str), ∀ p ∈ splitOnNl s, '\n' ∉ p := by
  intro s
  induction s with
  | nil =>
    intro p hp
    simp only [splitOnNl, List.mem_singleton] at hp
    subst hp; simp
  | cons c cs ih =>
    intro p hp
    simp only [splitOnNl] at hp
    by_cases hc : c = '\n'
    · rw [if_pos hc] at hp
      rcases List.mem_cons.mp hp with rfl | hp2
      · simp
      · exact ih p hp2
    · rw [if_neg hc] at hp
      rcases hq : splitOnNl cs with _ | ⟨q, qs⟩
      · rw [hq] at hp
        simp only [List.mem_singleton] at hp
        subst hp
        simp only [List.mem_singleton]
        exact fun h => hc h.symm
      · rw [hq] at hp
        rcases List.mem_cons.mp hp with rfl | hp2
        · intro hmem
          rcases List.mem_cons.mp hmem with h | h
          · exact hc h.symm
          · exact ih q (hq ▸ List.mem_cons_self q qs) h
        · exact ih p (hq ▸ List.mem_cons_of_mem q hp2)

/-- A separator-free string splits into the single piece it is. -/
theorem splitOnNl_of_no_nl {p : Str} (h : '\n' ∉ p) : splitOnNl p = [p] := by
  induction p with
  | nil => rfl
  | cons c cs ih =>
    have hc : ¬ c = '\n' := fun hh => h (hh ▸ List.mem_cons_self c cs)
    have hcs : '\n' ∉ cs := fun hh => h (List.mem_cons_of_mem c hh)
    simp only [splitOnNl, if_neg hc, ih hcs]

/-- Splitting peels off a separator-free front piece. -/
theorem splitOnNl_append_nl {p rest : Str} (h : '\n' ∉ p) :
    splitOnNl (p ++ '\n' :: rest) = p :: splitOnNl rest := by
  induction p with
  | nil => simp [splitOnNl]
  | cons c cs ih =>
    have hc : ¬ c = '\n' := fun hh => h (hh ▸ List.mem_cons_self c cs)
    have hcs : '\n' ∉ cs := fun hh => h (List.mem_cons_of_mem c hh)
    simp only [List.cons_append, splitOnNl, if_neg hc]
    rw [List.append_eq, ih hcs]

/-- Splitting inverts joining for nonempty lists of separator-free pieces. -/
theorem splitOnNl_joinNl : ∀ {ps : List Str}, ps ≠ [] →
    (∀ p ∈ ps, '\n' ∉ p) → splitOnNl (joinNl ps) = ps := by
  intro ps
  induction ps with
  | nil => intro h; exact absurd rfl h
  | cons p qs ih =>
    intro _ hall
    cases qs with
    | nil => exact splitOnNl_of_no_nl (hall p (List.mem_cons_self _ _))
    | cons q rs =>
      show splitOnNl (p ++ '\n' :: joinNl (q :: rs)) = _
      rw [splitOnNl_append_nl (hall p (List.mem_cons_self _ _))]
      congr 1
      exact ih (by simp) (fun r hr => hall r (List.mem_cons_of_mem _ hr))

/-- Every derived unit is already trimmed, non-empty and separator-free. -/
theorem mem_uniqueParagraphs {u s : Str} (h : u ∈ uniqueParagraphs s) :
    trim u = u ∧ u ≠ [] ∧ '\n' ∉ u := by
  unfold uniqueParagraphs at h
  have h1 := mem_of_mem_dedupFirst h
  have h2 := List.mem_of_mem_filter h1
  have hne : u ≠ [] := by
    have := List.of_mem_filter h1
    simpa using this
  obtain ⟨v, hv, huv⟩ := List.mem_map.mp h2
  refine ⟨?_, hne, ?_⟩
  · rw [← huv, trim_trim]
  · intro hmem
    rw [← huv] at hmem
    exact not_nl_mem_splitOnNl s v hv (mem_of_mem_trim hmem)

/-- The unit list of any content is duplicate-free. -/
theorem uniqueParagraphs_nodup (s : Str) : (uniqueParagraphs s).Nodup :=
  dedupFirst_nodup _

/-- `hasHH` ignores a leading character that is not `H`. -/
theorem hasHH_cons_of_ne {c : Char} (hc : ¬ c = 'H') (x : Str) :
    hasHH (c :: x) = hasHH x := by
  cases x with
  | nil => simp [hasHH]
  | cons d r => simp [hasHH, hc]

/-- A string without consecutive `H`s keeps that property after its head. -/
theorem hasHH_tail {c : Char} {cs : Str} (h : hasHH (c :: cs) = false) :
    hasHH cs = false := by
  cases cs with
  | nil => rfl
  | cons d r =>
    simp only [hasHH, Bool.or_eq_false_iff] at h
    exact h.2

/-- Flushing a pending single `H` in front of a safe continuation. -/
theorem stripHHAux_one {s : Str} (h : ∀ d, s.head? = some d → ¬ d = 'H') :
    stripHHAux 1 s = 'H' :: stripHHAux 0 s := by
  cases s with
  | nil => rfl
  | cons c cs =>
    have hc : ¬ c = 'H' := h c rfl
    simp [stripHHAux, hc]

/-- A message without a run of two `H`s is left unchanged by the stripper. -/
theorem stripHH_of_no_hh : ∀ {s : Str}, hasHH s = false → stripHH s = s := by
  intro s
  unfold stripHH
  induction s with
  | nil => intro _; rfl
  | cons c cs ih =>
    intro h
    by_cases hc : c = 'H'
    · subst hc
      have hhead : ∀ d, cs.head? = some d → ¬ d = 'H' := by
        intro d hd hdH
        cases cs with
        | nil => simp at hd
        | cons e r =>
          simp only [List.head?_cons, Option.some_inj] at hd
          subst hd
          subst hdH
          simp [hasHH] at h
      show stripHHAux 1 cs = 'H' :: cs
      rw [stripHHAux_one hhead, ih (hasHH_tail h)]
    · show (if c = 'H' then stripHHAux 1 cs
        else (if (0 : Nat) = 1 then ['H'] else []) ++ c :: stripHHAux 0 cs) = c :: cs
      rw [if_neg hc]
      simp only [List.nil_append, if_neg (by omega : ¬ (0 : Nat) = 1)]
      rw [ih (hasHH_tail h)]

/-- The stripper's output never contains two consecutive `H`s. -/
theorem hasHH_stripHHAux : ∀ (s : Str) (n : Nat),
    hasHH (stripHHAux n s) = false := by
  intro s
  induction s with
  | nil =>
    intro n
    by_cases hn : n = 1 <;> simp [stripHHAux, hn, hasHH]
  | cons c cs ih =>
    intro n
    by_cases hc : c = 'H'
    · subst hc
      simpa [stripHHAux] using ih (n + 1)
    · have htail : hasHH (c :: stripHHAux 0 cs) = false := by
        rw [hasHH_cons_of_ne hc]
        exact ih 0
      by_cases hn : n = 1
      · subst hn
        have h1 : stripHHAux 1 (c :: cs) = 'H' :: c :: stripHHAux 0 cs := by
          simp [stripHHAux, hc]
        have h2 : hasHH ('H' :: c :: stripHHAux 0 cs)
            = ((('H' : Char) = 'H' && c = 'H') || hasHH (c :: stripHHAux 0 cs)) := by
          simp [hasHH]
        rw [h1, h2]
        simp [hc, htail]
      · simpa [stripHHAux, if_neg hc, hn] using htail

/-- The stripper removes only `H` characters. -/
theorem stripHHAux_filter : ∀ (s : Str) (n : Nat),
    (stripHHAux n s).filter (fun c => c ≠ 'H') = s.filter (fun c => c ≠ 'H') := by
  intro s
  induction s with
  | nil =>
    intro n
    by_cases hn : n = 1 <;> simp [stripHHAux, hn]
  | cons c cs ih =>
    intro n
    by_cases hc : c = 'H'
    · subst hc
      have h1 : stripHHAux n ('H' :: cs) = stripHHAux (n + 1) cs := by
        simp [stripHHAux]
      have h2 : List.filter (fun c => c ≠ 'H') ('H' :: cs)
          = List.filter (fun c => c ≠ 'H') cs := by
        simp
      rw [h1, h2, ih (n + 1)]
    · have h1 : stripHHAux n (c :: cs)
          = (if n = 1 then ['H'] else []) ++ c :: stripHHAux 0 cs := by
        simp [stripHHAux, hc]
      have h2 : List.filter (fun c => c ≠ 'H') (if n = 1 then (['H'] : Str) else [])
          = [] := by
        by_cases hn : n = 1 <;> simp [hn]
      rw [h1, List.filter_append, h2, List.nil_append]
      have h3 : List.filter (fun c => c ≠ 'H') (c :: stripHHAux 0 cs)
          = c :: List.filter (fun c => c ≠ 'H') (stripHHAux 0 cs) := by
        simp [List.filter_cons, hc]
      have h4 : List.filter (fun c => c ≠ 'H') (c :: cs)
          = c :: List.filter (fun c => c ≠ 'H') cs := by
        simp [List.filter_cons, hc]
      rw [h3, h4, ih 0]

/-! ## Claim theorems -/

/-- C1: the claim says the first tick reveals exactly unit index 0, never a
placeholder or undefined element, and that N ticks reach the terminal state.
The code starts the cursor at `-1` and reads `uniqueParagraphs[currentIndex]`
before incrementing, so for the one-unit content "A" the first tick appends
`undefined`, re-arms the timer, and only the second tick appends "A" (after
the placeholder). -/
theorem c1_first_tick_appends_undefined :
    uniqueParagraphs ['A'] = [['A']] ∧
    (showNextParagraph (uniqueParagraphs ['A']) chatStart).visibleParagraphs
      = [none] ∧
    (showNextParagraph (uniqueParagraphs ['A']) chatStart).timerArmed = true ∧
    (showNextParagraph (uniqueParagraphs ['A'])
        (showNextParagraph (uniqueParagraphs ['A']) chatStart)).visibleParagraphs
      = [none, some ['A']] := by decide

/-- C2 (counterexample): `TypingMessage` does not derive the spec's Unit
sequence: on "A \nA" it keeps the untrimmed piece "A " and the duplicate "A",
while the spec derivation gives just ["A"]. -/
theorem c2_typingMessage_units_differ :
    typingParagraphs ['A', ' ', '\n', 'A'] = [['A', ' '], ['A']] ∧
    specUnits ['A', ' ', '\n', 'A'] = [['A']] ∧
    typingParagraphs ['A', ' ', '\n', 'A'] ≠ specUnits ['A', ' ', '\n', 'A'] := by
  decide

/-- C2 (amended): the `ChatMessage` implementation does derive exactly the
spec's Unit sequence — split on line breaks, trim, drop pieces empty after
trimming, deduplicate by exact equality keeping the first occurrence. -/
theorem c2_chatMessage_matches_spec_units (s : Str) :
    uniqueParagraphs s = specUnits s := by
  unfold uniqueParagraphs specUnits
  congr 1
  apply List.filter_congr
  intro p hp
  obtain ⟨v, hv, rfl⟩ := List.mem_map.mp hp
  simp [trim_trim]

/-- C3: after `start("X")`, one tick, then `start("Y\nZ")`, the old session's
re-armed 800 ms timeout (handle 1, never saved in the effect's `timer`
variable) survives the cleanup `clearTimeout(timer)`, and when it fires it
appends the old unit "X" to the new session's visible output — a stale tick
from the old session is observable. -/
theorem c3_stale_timer_fires_into_new_session :
    findPending 1 (effectRun ['Y', '\n', 'Z']
        (fireTimer 0 (effectRun ['X'] emptyWorld))).pending = some 0 ∧
    (fireTimer 1 (effectRun ['Y', '\n', 'Z']
        (fireTimer 0 (effectRun ['X'] emptyWorld)))).visible = [some ['X']] ∧
    some ['X'] ∉ (uniqueParagraphs ['Y', '\n', 'Z']).map some := by decide

/-- C4: the revealed-units-form-a-prefix invariant is broken by the very
first tick: for content "A" the visible list after one tick is
`[undefined]`, which is not `map some` of any prefix of the Unit sequence
["A"]. -/
theorem c4_first_tick_breaks_prefix_invariant :
    (showNextParagraph (uniqueParagraphs ['A']) chatStart).visibleParagraphs ∉
      ((uniqueParagraphs ['A']).inits.map (fun ps => ps.map some)) := by decide

/-- C5: for empty or whitespace-only content the claim demands an immediately
terminal session (active false from the outset, no tick ever adds a unit).
`TypingMessage` leaves `isTyping` true on the empty string (the effect
returns early after `setIsTyping(true)` and never arms the interval that
would reset it), and on the whitespace-only content " " the first tick of
either implementation appends `undefined` while `isTyping` stays true. -/
theorem c5_blank_content_not_terminal :
    (typingStart []).isTyping = true ∧
    typingParagraphs [' '] = [] ∧
    (typingTick [' '] (typingStart [' '])).displayedParagraphs = [none] ∧
    (typingTick [' '] (typingStart [' '])).isTyping = true ∧
    uniqueParagraphs [' '] = [] ∧
    (showNextParagraph (uniqueParagraphs [' ']) chatStart).visibleParagraphs
      = [none] := by decide

/-- C6: the derived units of "A\nA\nB\n\nC" are ["A","B","C"] exactly as
claimed, but the revealed trace diverges: after 1 tick the output is
`[undefined]` (not ["A"]), after 3 ticks `[undefined,"A","B"]` (not
["A","B","C"]), and the timer is still armed after the 3rd tick, so the
session is not terminal after N = 3 ticks. -/
theorem c6_example_trace_diverges :
    uniqueParagraphs ['A', '\n', 'A', '\n', 'B', '\n', '\n', 'C']
      = [['A'], ['B'], ['C']] ∧
    ((showNextParagraph
        (uniqueParagraphs ['A', '\n', 'A', '\n', 'B', '\n', '\n', 'C']))^[1]
        chatStart).visibleParagraphs = [none] ∧
    ((showNextParagraph
        (uniqueParagraphs ['A', '\n', 'A', '\n', 'B', '\n', '\n', 'C']))^[3]
        chatStart).visibleParagraphs = [none, some ['A'], some ['B']] ∧
    ((showNextParagraph
        (uniqueParagraphs ['A', '\n', 'A', '\n', 'B', '\n', '\n', 'C']))^[3]
        chatStart).timerArmed = true := by decide

/-- C7: the unit-derivation step is idempotent — re-deriving units from the
line-break rejoin of a unit list returns that unit list. -/
theorem c7_units_idempotent (s : Str) :
    uniqueParagraphs (joinNl (uniqueParagraphs s)) = uniqueParagraphs s := by
  rcases hu : uniqueParagraphs s with _ | ⟨u, us⟩
  · decide
  · have hmem : ∀ p ∈ (u :: us), trim p = p ∧ p ≠ [] ∧ '\n' ∉ p := by
      intro p hp
      exact mem_uniqueParagraphs (by rw [hu]; exact hp)
    have hnodup : (u :: us).Nodup := by
      have := uniqueParagraphs_nodup s
      rwa [hu] at this
    have hsplit : splitOnNl (joinNl (u :: us)) = u :: us :=
      splitOnNl_joinNl (by simp) (fun p hp => (hmem p hp).2.2)
    show uniqueParagraphs (joinNl (u :: us)) = u :: us
    unfold uniqueParagraphs
    rw [hsplit]
    have hmap : (u :: us).map trim = u :: us := by
      have key : ∀ (l : List Str), (∀ p ∈ l, trim p = p) → l.map trim = l := by
        intro l
        induction l with
        | nil => intro _; rfl
        | cons a t iht =>
          intro hl
          rw [List.map_cons, hl a (List.mem_cons_self _ _),
            iht (fun p hp => hl p (List.mem_cons_of_mem _ hp))]
      exact key _ (fun p hp => (hmem p hp).1)
    rw [hmap]
    have hfilter : (u :: us).filter (fun p => p ≠ []) = u :: us := by
      apply List.filter_eq_self.mpr
      intro a ha
      simpa using (hmem a ha).2.1
    rw [hfilter]
    exact dedupFirst_eq_self hnodup

/-- C8: on an upstream chat failure `EventSearch` appends exactly one system
message holding the fixed fallback string verbatim; every system message —
the fallback just like a successful response — takes the same non-user
reveal branch of `ChatMessage`; and `ChatInterface` likewise appends its
fixed network-failure fallback with `isUser` false. -/
theorem c8_failure_fallback_same_path :
    getChatResponseMessages (Except.error ())
      = [⟨MsgType.system, chatFallback⟩] ∧
    chatMessageEffect ⟨MsgType.system, chatFallback⟩ = chatStart ∧
    (∀ s : Str, chatMessageEffect ⟨MsgType.system, s⟩ = chatStart) ∧
    handleSubmitBotMessage (Except.error ())
      = ⟨ifaceFallbackNetwork, false⟩ := by
  refine ⟨rfl, ?_, fun s => ?_, rfl⟩ <;> simp [chatMessageEffect]

/-- C9: a successful chat response is stored as one system message whose
content is the backend message with every run of two or more consecutive `H`
characters deleted: a message with no such run is stored exactly, the stored
content never contains such a run, and nothing but `H` characters is ever
removed. -/
theorem c9_h_runs_stripped (m : Str) (hm : m ≠ []) :
    getChatResponseMessages (Except.ok ⟨some m⟩)
      = [⟨MsgType.system, stripHH m⟩] ∧
    (hasHH m = false → stripHH m = m) ∧
    hasHH (stripHH m) = false ∧
    (stripHH m).filter (fun c => c ≠ 'H') = m.filter (fun c => c ≠ 'H') := by
  refine ⟨?_, fun h => stripHH_of_no_hh h, hasHH_stripHHAux m 0,
    stripHHAux_filter m 0⟩
  simp [getChatResponseMessages, hm]

/-- Witness for C9 at the concrete backend message "aHHb". -/
theorem c9_h_runs_stripped_witness :
    (['a', 'H', 'H', 'b'] : Str) ≠ [] ∧
    (getChatResponseMessages (Except.ok ⟨some ['a', 'H', 'H', 'b']⟩)
        = [⟨MsgType.system, stripHH ['a', 'H', 'H', 'b']⟩] ∧
      (hasHH ['a', 'H', 'H', 'b'] = false →
        stripHH ['a', 'H', 'H', 'b'] = ['a', 'H', 'H', 'b']) ∧
      hasHH (stripHH ['a', 'H', 'H', 'b']) = false ∧
      (stripHH ['a', 'H', 'H', 'b']).filter (fun c => c ≠ 'H')
        = (['a', 'H', 'H', 'b'] : Str).filter (fun c => c ≠ 'H')) :=
  ⟨by decide, c9_h_runs_stripped ['a', 'H', 'H', 'b'] (by decide)⟩

/-- C10: a user message bypasses the incremental reveal — the effect publishes
the full deduplicated unit sequence in one step and arms no timer — while a
non-user message starts with an empty visible list and an armed timer. -/
theorem c10_user_messages_bypass_reveal (c : Str) :
    (chatMessageEffect ⟨MsgType.user, c⟩).visibleParagraphs
      = (uniqueParagraphs c).map some ∧
    (chatMessageEffect ⟨MsgType.user, c⟩).timerArmed = false ∧
    (chatMessageEffect ⟨MsgType.system, c⟩).visibleParagraphs = [] ∧
    (chatMessageEffect ⟨MsgType.system, c⟩).timerArmed = true := by
  refine ⟨?_, ?_, ?_, ?_⟩ <;> simp [chatMessageEffect, chatStart]

end Cultivia
